import Mathlib

/-!
Shallow embedding of the two feature calculators of the repository
(`src/strategy/features/ob_imbalance.py` and
`src/strategy/features/trades_imbalance.py`) over the real numbers,
with an explicit IEEE-style value type for the results of division and
logarithm at their singular points (0/0, x/0, log 0, log of a negative).
-/

/-- IEEE-style value: a finite real, plus the two infinities and NaN
produced by numpy division and logarithm at singular points. -/
inductive FVal where
  | fin (x : ℝ)
  | inf
  | ninf
  | nan

/-- Negation, as IEEE: finite negates, infinities swap, NaN propagates. -/
def FVal.neg : FVal → FVal
  | .fin x => .fin (-x)
  | .inf => .ninf
  | .ninf => .inf
  | .nan => .nan

/-- Addition, as IEEE: NaN propagates, opposite infinities give NaN,
an infinity absorbs a finite value, finite values add in ℝ. -/
def FVal.add : FVal → FVal → FVal
  | .nan, _ => .nan
  | _, .nan => .nan
  | .inf, .ninf => .nan
  | .ninf, .inf => .nan
  | .inf, _ => .inf
  | _, .inf => .inf
  | .ninf, _ => .ninf
  | _, .ninf => .ninf
  | .fin x, .fin y => .fin (x + y)

/-- Subtraction, as IEEE: a - b = a + (-b). -/
def FVal.sub (a b : FVal) : FVal := a.add b.neg

/-- The value is a finite, strictly positive real. -/
def FVal.isPosFin : FVal → Prop
  | .fin x => 0 < x
  | _ => False

/-- Multiplication by a real scalar, as IEEE (an infinity times 0 is NaN;
the model has no signed zero, so the scalar 0 is treated as +0). -/
noncomputable def FVal.mulReal : FVal → ℝ → FVal
  | .fin x, w => .fin (x * w)
  | .inf, w => if 0 < w then .inf else if w < 0 then .ninf else .nan
  | .ninf, w => if 0 < w then .ninf else if w < 0 then .inf else .nan
  | .nan, _ => .nan

/-- Division of two reals, as IEEE with an unsigned zero denominator taken
as +0: x/0 is +inf for x > 0, -inf for x < 0, NaN for x = 0. -/
noncomputable def fdiv (x y : ℝ) : FVal :=
  if y ≠ 0 then .fin (x / y)
  else if 0 < x then .inf
  else if x < 0 then .ninf
  else .nan

/-- Division of two FVal operands, as IEEE: NaN propagates, inf/inf is NaN,
a finite numerator over an infinity is 0, an infinite numerator over a
finite denominator keeps the (sign-adjusted) infinity. -/
noncomputable def fdivF : FVal → FVal → FVal
  | .nan, _ => .nan
  | _, .nan => .nan
  | .inf, .inf => .nan
  | .inf, .ninf => .nan
  | .ninf, .inf => .nan
  | .ninf, .ninf => .nan
  | .inf, .fin y => if 0 ≤ y then .inf else .ninf
  | .ninf, .fin y => if 0 ≤ y then .ninf else .inf
  | .fin _, .inf => .fin 0
  | .fin _, .ninf => .fin 0
  | .fin x, .fin y => fdiv x y

/-- Natural logarithm lifted to FVal, as numpy: log of a positive real is
finite, log 0 is -inf, log of a negative real is NaN, log(+inf) is +inf,
log(-inf) and log(NaN) are NaN. -/
noncomputable def flog : FVal → FVal
  | .fin x => if 0 < x then .fin (Real.log x) else if x = 0 then .ninf else .nan
  | .inf => .inf
  | .ninf => .nan
  | .nan => .nan

/-- Modelled from the spec: the weight generator `ema_weights` lives in
`src/indicators/ema.py`, which is not part of the sources given; per the
spec it returns `n` non-negative floats summing to 1, decaying
geometrically from the high-weight end toward the low-weight end, and
`reverse` swaps which end is high (forward ordering puts the greatest
weight at index 0).  The decay ratio is not fixed by the spec; it is
modelled here as 1/2. -/
noncomputable def geoRaw (n : ℕ) : List ℝ :=
  (List.range n).map (fun i => (2⁻¹ : ℝ) ^ i)

/-- Modelled from the spec (see `geoRaw`): the normalized geometric weight
vector, reversed when `reverse` is true. -/
noncomputable def ema_weights (n : ℕ) (reverse : Bool) : List ℝ :=
  let fw := (geoRaw n).map (fun x => x / (geoRaw n).sum)
  if reverse then fw.reverse else fw

/-! ### trades_imbalance (src/strategy/features/trades_imbalance.py) -/

/-- A row of the trade tape, in the source's column order
[time, side, price, size] (side: 0 is a buy, 1 is a sell). -/
structure TradeRow where
  time : ℝ
  side : ℝ
  price : ℝ
  size : ℝ

/-- Effective window: `window = min(window, trades.shape[0])`. -/
def tradesEffWindow (trades : List TradeRow) (window : ℕ) : ℕ :=
  min window trades.length

/-- Weight vector used by `trades_imbalance`:
`weights = ema_weights(window, reverse=True)` on the clamped window. -/
noncomputable def tradesWeights (trades : List TradeRow) (window : ℕ) : List ℝ :=
  ema_weights (tradesEffWindow trades window) true

/-- Weighted quantity of one trade:
`np.log(1 + trades[i, 3]) * weights[i]`. -/
noncomputable def wqty (t : TradeRow) (w : ℝ) : FVal :=
  (flog (.fin (1 + t.size))).mulReal w

/-- The accumulation loop of `trades_imbalance`: walk the (trade, weight)
pairs in order; a trade whose side equals 0.0 adds its weighted quantity to
`delta_buys`, any other side value adds it to `delta_sells`. -/
noncomputable def accumTrades : List (TradeRow × ℝ) → FVal × FVal → FVal × FVal
  | [], acc => acc
  | (t, w) :: rest, (b, s) =>
    if t.side = 0 then accumTrades rest (b.add (wqty t w), s)
    else accumTrades rest (b, s.add (wqty t w))

/-- The two accumulators `(delta_buys, delta_sells)` after the loop. -/
noncomputable def tradesTotals (trades : List TradeRow) (window : ℕ) : FVal × FVal :=
  accumTrades
    ((trades.take (tradesEffWindow trades window)).zip (tradesWeights trades window))
    (.fin 0, .fin 0)

/-- `trades_imbalance(trades, window)`:
`(delta_buys - delta_sells) / (delta_buys + delta_sells)`. -/
noncomputable def trades_imbalance (trades : List TradeRow) (window : ℕ) : FVal :=
  let bs := tradesTotals trades window
  fdivF (bs.1.sub bs.2) (bs.1.add bs.2)

/-! ### orderbook_imbalance (src/strategy/features/ob_imbalance.py) -/

/-- The conversion `depths = depths / 1e-4` applied to one depth value. -/
noncomputable def bpsToMultiplier (d : ℝ) : ℝ := d / 1e-4

/-- `min_bid = best_bid_p * (1 - depths[i])` on the converted depth. -/
noncomputable def minBidPrice (best_bid d : ℝ) : ℝ :=
  best_bid * (1 - bpsToMultiplier d)

/-- `max_ask = best_ask_p * (1 + depths[i])` on the converted depth. -/
noncomputable def maxAskPrice (best_ask d : ℝ) : ℝ :=
  best_ask * (1 + bpsToMultiplier d)

/-- `bid_p[bid_p >= min_bid].size`: how many bid prices lie in the band. -/
noncomputable def numBidsWithinDepth (bid_p : List ℝ) (min_bid : ℝ) : ℕ :=
  (bid_p.filter (fun p => decide (min_bid ≤ p))).length

/-- `ask_p[ask_p <= max_ask].size`: how many ask prices lie in the band. -/
noncomputable def numAsksWithinDepth (ask_p : List ℝ) (max_ask : ℝ) : ℕ :=
  (ask_p.filter (fun p => decide (p ≤ max_ask))).length

/-- `np.sum(q[:n])`: the quantity total over the first `n` levels. -/
noncomputable def totalSizeWithin (q : List ℝ) (n : ℕ) : ℝ := (q.take n).sum

/-- One iteration of the depth loop:
`imbalances[i] = np.log(total_bid_size / total_ask_size)`. -/
noncomputable def depthImbalance (bid_p bid_q ask_p ask_q : List ℝ)
    (best_bid best_ask d : ℝ) : FVal :=
  flog (fdiv
    (totalSizeWithin bid_q (numBidsWithinDepth bid_p (minBidPrice best_bid d)))
    (totalSizeWithin ask_q (numAsksWithinDepth ask_p (maxAskPrice best_ask d))))

/-- Weight vector used by `orderbook_imbalance`:
`weights = ema_weights(num_depths)` (forward ordering, no reversal). -/
noncomputable def obWeights (depths : List ℝ) : List ℝ :=
  ema_weights depths.length false

/-- `np.sum(imbalances * weights)`: elementwise product then sum,
starting from 0.0. -/
noncomputable def weightedSum (ims : List FVal) (ws : List ℝ) : FVal :=
  (ims.zip ws).foldl (fun acc p => acc.add (p.1.mulReal p.2)) (.fin 0)

/-- `orderbook_imbalance(bids, asks, depths)`.  Accessing the best bid and
ask (`bid_p[0]`, `ask_p[0]`) fails on an empty side, modelled by `none`;
otherwise the geometrically weighted sum of the per-depth log-ratios. -/
noncomputable def orderbook_imbalance (bids asks : List (ℝ × ℝ))
    (depths : List ℝ) : Option FVal :=
  match bids, asks with
  | [], _ => none
  | _, [] => none
  | (bb, _) :: _, (ba, _) :: _ =>
    let bid_p := bids.map Prod.fst
    let bid_q := bids.map Prod.snd
    let ask_p := asks.map Prod.fst
    let ask_q := asks.map Prod.snd
    some (weightedSum
      (depths.map (fun d => depthImbalance bid_p bid_q ask_p ask_q bb ba d))
      (obWeights depths))

/-! ### Basic lemmas about the FVal operations -/

@[simp] theorem FVal.add_fin_fin (x y : ℝ) :
    (FVal.fin x).add (.fin y) = .fin (x + y) := rfl

@[simp] theorem FVal.add_fin_nan (x : ℝ) :
    (FVal.fin x).add .nan = .nan := rfl

@[simp] theorem FVal.add_nan (v : FVal) : FVal.nan.add v = .nan := by
  cases v <;> rfl

@[simp] theorem FVal.neg_fin (x : ℝ) : (FVal.fin x).neg = .fin (-x) := rfl

@[simp] theorem FVal.sub_fin_fin (x y : ℝ) :
    (FVal.fin x).sub (.fin y) = .fin (x + -y) := rfl

@[simp] theorem FVal.mulReal_fin (x w : ℝ) :
    (FVal.fin x).mulReal w = .fin (x * w) := rfl

@[simp] theorem FVal.mulReal_nan (w : ℝ) : FVal.nan.mulReal w = .nan := rfl

theorem fdivF_fin_fin (x y : ℝ) :
    fdivF (.fin x) (.fin y) = fdiv x y := rfl

theorem fdiv_zero_zero : fdiv 0 0 = .nan := by
  simp [fdiv]

theorem fdiv_of_ne_zero {y : ℝ} (hy : y ≠ 0) (x : ℝ) :
    fdiv x y = .fin (x / y) := by
  simp [fdiv, hy]

theorem flog_fin_pos {x : ℝ} (hx : 0 < x) :
    flog (.fin x) = .fin (Real.log x) := by
  simp [flog, hx]

@[simp] theorem flog_nan : flog .nan = .nan := rfl

/-! ### Lemmas about the modelled weight generator -/

theorem geoRaw_length (n : ℕ) : (geoRaw n).length = n := by
  simp [geoRaw]

theorem geoRaw_nonneg (n : ℕ) : ∀ x ∈ geoRaw n, 0 ≤ x := by
  intro x hx
  simp only [geoRaw, List.mem_map] at hx
  obtain ⟨i, -, rfl⟩ := hx
  positivity

theorem geoRaw_sum_nonneg (n : ℕ) : 0 ≤ (geoRaw n).sum :=
  List.sum_nonneg (geoRaw_nonneg n)

theorem geoRaw_sum_pos {n : ℕ} (hn : 0 < n) : 0 < (geoRaw n).sum := by
  refine List.sum_pos _ ?_ ?_
  · intro x hx
    simp only [geoRaw, List.mem_map] at hx
    obtain ⟨i, -, rfl⟩ := hx
    positivity
  · apply List.ne_nil_of_length_pos
    rw [geoRaw_length]
    exact hn

theorem ema_weights_length (n : ℕ) (r : Bool) : (ema_weights n r).length = n := by
  cases r <;> simp [ema_weights, geoRaw_length]

theorem ema_weights_nonneg (n : ℕ) (r : Bool) :
    ∀ w ∈ ema_weights n r, 0 ≤ w := by
  intro w hw
  have hmem : w ∈ (geoRaw n).map (fun x => x / (geoRaw n).sum) := by
    cases r <;> simpa [ema_weights] using hw
  simp only [List.mem_map] at hmem
  obtain ⟨x, hx, rfl⟩ := hmem
  exact div_nonneg (geoRaw_nonneg n x hx) (geoRaw_sum_nonneg n)

theorem ema_weights_false_getElem (n : ℕ) (i : ℕ) (h : i < n) :
    (ema_weights n false).getD i 0 = (2⁻¹ : ℝ) ^ i / (geoRaw n).sum := by
  have hlen : i < (ema_weights n false).length := by
    rw [ema_weights_length]; exact h
  rw [List.getD_eq_getElem _ _ hlen]
  simp [ema_weights, geoRaw, List.getElem_map, List.getElem_range, h]

/-! ### Claim theorems -/

/-- C1: in `orderbook_imbalance` each depth value (given in basis points)
is converted by dividing it by 1e-4, i.e. the fractional multiplier used
for price-banding equals `depth * 10000`, so for every depth value the
band bounds are `min_bid = best_bid * (1 - depth * 10000)` and
`max_ask = best_ask * (1 + depth * 10000)`. -/
theorem depth_conversion_multiplies_by_ten_thousand
    (best_bid best_ask d : ℝ) :
    bpsToMultiplier d = d * 10000 ∧
    minBidPrice best_bid d = best_bid * (1 - d * 10000) ∧
    maxAskPrice best_ask d = best_ask * (1 + d * 10000) := by
  have h : bpsToMultiplier d = d * 10000 := by
    unfold bpsToMultiplier
    rw [div_eq_mul_inv]
    norm_num
  refine ⟨h, ?_, ?_⟩ <;> simp [minBidPrice, maxAskPrice, h]

/-! ### Accumulation-loop lemmas for trades_imbalance -/

theorem wqty_of_zero_size {t : TradeRow} (h : t.size = 0) (w : ℝ) :
    wqty t w = .fin 0 := by
  unfold wqty
  rw [h]
  norm_num [flog, Real.log_one]

theorem accumTrades_zero_sizes :
    ∀ (l : List (TradeRow × ℝ)) (b s : ℝ),
    (∀ p ∈ l, p.1.size = 0) →
    accumTrades l (.fin b, .fin s) = (.fin b, .fin s) := by
  intro l
  induction l with
  | nil => intro b s _; rfl
  | cons p rest ih =>
    intro b s h
    obtain ⟨t, w⟩ := p
    have ht : t.size = 0 := h (t, w) (List.mem_cons_self _ _)
    have hrest : ∀ q ∈ rest, q.1.size = 0 :=
      fun q hq => h q (List.mem_cons_of_mem _ hq)
    by_cases hside : t.side = 0 <;>
      simp [accumTrades, hside, wqty_of_zero_size ht, ih _ _ hrest]

theorem accumTrades_all_buys :
    ∀ (l : List (TradeRow × ℝ)) (b s : FVal),
    (∀ p ∈ l, p.1.side = 0) →
    (accumTrades l (b, s)).2 = s := by
  intro l
  induction l with
  | nil => intro b s _; rfl
  | cons p rest ih =>
    intro b s h
    obtain ⟨t, w⟩ := p
    have ht : t.side = 0 := h (t, w) (List.mem_cons_self _ _)
    have hrest : ∀ q ∈ rest, q.1.side = 0 :=
      fun q hq => h q (List.mem_cons_of_mem _ hq)
    simp [accumTrades, ht, ih _ _ hrest]

theorem accumTrades_all_sells :
    ∀ (l : List (TradeRow × ℝ)) (b s : FVal),
    (∀ p ∈ l, p.1.side ≠ 0) →
    (accumTrades l (b, s)).1 = b := by
  intro l
  induction l with
  | nil => intro b s _; rfl
  | cons p rest ih =>
    intro b s h
    obtain ⟨t, w⟩ := p
    have ht : t.side ≠ 0 := h (t, w) (List.mem_cons_self _ _)
    have hrest : ∀ q ∈ rest, q.1.side ≠ 0 :=
      fun q hq => h q (List.mem_cons_of_mem _ hq)
    simp [accumTrades, ht, ih _ _ hrest]

/-- C6: for every trade tape and window larger than the tape's length,
`trades_imbalance` silently clamps the effective window to the tape length
and computes the same result as with the tape length as window; the
function is total, so no error is raised. -/
theorem window_clamps_to_tape_length (trades : List TradeRow) (window : ℕ)
    (h : trades.length ≤ window) :
    tradesEffWindow trades window = trades.length ∧
    trades_imbalance trades window = trades_imbalance trades trades.length := by
  have he : tradesEffWindow trades window = trades.length := by
    unfold tradesEffWindow; omega
  have he2 : tradesEffWindow trades trades.length = trades.length := by
    unfold tradesEffWindow; omega
  refine ⟨he, ?_⟩
  unfold trades_imbalance tradesTotals tradesWeights
  rw [he, he2]

/-- C6 witness: a window of 5 over a one-trade tape clamps to 1. -/
theorem window_clamps_witness :
    tradesEffWindow [⟨0, 0, 0, 1⟩] 5 = 1 ∧
    trades_imbalance [⟨0, 0, 0, 1⟩] 5 = trades_imbalance [⟨0, 0, 0, 1⟩] 1 := by
  have h := window_clamps_to_tape_length [⟨0, 0, 0, 1⟩] 5 (by norm_num)
  simpa using h

/-- C4: whenever both accumulated totals are 0 — in particular whenever
every trade size inside the effective window is 0, or the effective
window is empty — `trades_imbalance` returns NaN (the IEEE result of
0/0), never a substituted default. -/
theorem zero_sizes_in_window_give_nan (trades : List TradeRow) (window : ℕ) :
    (tradesTotals trades window = (.fin 0, .fin 0) →
      trades_imbalance trades window = .nan) ∧
    ((∀ t ∈ trades.take (tradesEffWindow trades window), t.size = 0) →
      trades_imbalance trades window = .nan) := by
  have hmain : tradesTotals trades window = (.fin 0, .fin 0) →
      trades_imbalance trades window = .nan := by
    intro htot
    unfold trades_imbalance
    show fdivF ((tradesTotals trades window).1.sub (tradesTotals trades window).2)
      ((tradesTotals trades window).1.add (tradesTotals trades window).2) = _
    rw [htot]
    show fdivF (FVal.sub (.fin 0) (.fin 0)) (FVal.add (.fin 0) (.fin 0)) = _
    simp only [FVal.sub_fin_fin, FVal.add_fin_fin, fdivF_fin_fin]
    norm_num [fdiv_zero_zero]
  refine ⟨hmain, ?_⟩
  intro h
  apply hmain
  unfold tradesTotals
  apply accumTrades_zero_sizes
  intro p hp
  obtain ⟨t, w⟩ := p
  exact h t (List.of_mem_zip hp).1

/-- C4 witness: one zero-size trade, window 1, yields NaN. -/
theorem zero_sizes_witness : trades_imbalance [⟨0, 0, 0, 0⟩] 1 = .nan := by
  apply (zero_sizes_in_window_give_nan [⟨0, 0, 0, 0⟩] 1).2
  intro t ht
  simp only [tradesEffWindow, List.length_cons, List.length_nil] at ht
  norm_num [List.take] at ht
  rw [ht]

/-- C5: if every trade in the effective window has side exactly 0 (Buy)
and the accumulated buy total is a strictly positive finite value, the
result is exactly 1.0; symmetrically, if every side is 1 (Sell) and the
sell total is strictly positive, the result is exactly -1.0. -/
theorem pure_side_dominance (trades : List TradeRow) (window : ℕ) :
    ((∀ t ∈ trades.take (tradesEffWindow trades window), t.side = 0) →
      (tradesTotals trades window).1.isPosFin →
      trades_imbalance trades window = .fin 1) ∧
    ((∀ t ∈ trades.take (tradesEffWindow trades window), t.side = 1) →
      (tradesTotals trades window).2.isPosFin →
      trades_imbalance trades window = .fin (-1)) := by
  constructor
  · intro hside hpos
    have hs : (tradesTotals trades window).2 = .fin 0 := by
      unfold tradesTotals
      apply accumTrades_all_buys
      intro p hp
      obtain ⟨t, w⟩ := p
      exact hside t (List.of_mem_zip hp).1
    rcases h1 : (tradesTotals trades window).1 with B | - | - | -
    case fin =>
      rw [h1] at hpos
      simp only [FVal.isPosFin] at hpos
      have hBne : B ≠ 0 := ne_of_gt hpos
      unfold trades_imbalance
      show fdivF ((tradesTotals trades window).1.sub (tradesTotals trades window).2)
        ((tradesTotals trades window).1.add (tradesTotals trades window).2) = _
      rw [h1, hs]
      show fdivF (FVal.sub (.fin B) (.fin 0)) (FVal.add (.fin B) (.fin 0)) = _
      simp only [FVal.sub_fin_fin, FVal.add_fin_fin, fdivF_fin_fin,
        neg_zero, add_zero]
      rw [fdiv_of_ne_zero hBne, div_self hBne]
    all_goals (rw [h1] at hpos; simp only [FVal.isPosFin] at hpos)
  · intro hside hpos
    have hb : (tradesTotals trades window).1 = .fin 0 := by
      unfold tradesTotals
      apply accumTrades_all_sells
      intro p hp
      obtain ⟨t, w⟩ := p
      have := hside t (List.of_mem_zip hp).1
      rw [this]
      norm_num
    rcases h2 : (tradesTotals trades window).2 with S | - | - | -
    case fin =>
      rw [h2] at hpos
      simp only [FVal.isPosFin] at hpos
      have hSne : S ≠ 0 := ne_of_gt hpos
      unfold trades_imbalance
      show fdivF ((tradesTotals trades window).1.sub (tradesTotals trades window).2)
        ((tradesTotals trades window).1.add (tradesTotals trades window).2) = _
      rw [h2, hb]
      show fdivF (FVal.sub (.fin 0) (.fin S)) (FVal.add (.fin 0) (.fin S)) = _
      simp only [FVal.sub_fin_fin, FVal.add_fin_fin, fdivF_fin_fin, zero_add]
      rw [fdiv_of_ne_zero hSne, neg_div, div_self hSne]
    all_goals (rw [h2] at hpos; simp only [FVal.isPosFin] at hpos)

/-- C5 witness: one buy of size 1 gives exactly 1, one sell of size 1
gives exactly -1. -/
theorem pure_side_dominance_witness :
    trades_imbalance [⟨0, 0, 0, 1⟩] 1 = .fin 1 ∧
    trades_imbalance [⟨0, 1, 0, 1⟩] 1 = .fin (-1) := by
  constructor
  · apply (pure_side_dominance [⟨0, 0, 0, 1⟩] 1).1
    · intro t ht
      simp only [tradesEffWindow, List.length_cons, List.length_nil] at ht
      norm_num [List.take] at ht
      rw [ht]
    · have h : tradesTotals [⟨0, 0, 0, 1⟩] 1 = (.fin (Real.log 2), .fin 0) := by
        simp [tradesTotals, tradesEffWindow, tradesWeights, ema_weights, geoRaw,
          accumTrades, wqty, flog]
        norm_num [List.range_succ, List.range_zero]
      rw [h]
      show (0:ℝ) < Real.log 2
      exact Real.log_pos one_lt_two
  · apply (pure_side_dominance [⟨0, 1, 0, 1⟩] 1).2
    · intro t ht
      simp only [tradesEffWindow, List.length_cons, List.length_nil] at ht
      norm_num [List.take] at ht
      rw [ht]
    · have h : tradesTotals [⟨0, 1, 0, 1⟩] 1 = (.fin 0, .fin (Real.log 2)) := by
        simp [tradesTotals, tradesEffWindow, tradesWeights, ema_weights, geoRaw,
          accumTrades, wqty, flog]
        norm_num [List.range_succ, List.range_zero]
      rw [h]
      show (0:ℝ) < Real.log 2
      exact Real.log_pos one_lt_two

theorem accumTrades_nonneg :
    ∀ (l : List (TradeRow × ℝ)) (b s : ℝ),
    (∀ p ∈ l, 0 ≤ p.1.size ∧ 0 ≤ p.2) → 0 ≤ b → 0 ≤ s →
    ∃ B S, accumTrades l (.fin b, .fin s) = (.fin B, .fin S) ∧ 0 ≤ B ∧ 0 ≤ S := by
  intro l
  induction l with
  | nil => intro b s _ hb hs; exact ⟨b, s, rfl, hb, hs⟩
  | cons p rest ih =>
    intro b s h hb hs
    obtain ⟨t, w⟩ := p
    obtain ⟨hsz, hw⟩ := h (t, w) (List.mem_cons_self _ _)
    have hrest := fun q hq => h q (List.mem_cons_of_mem _ hq)
    have hq : wqty t w = .fin (Real.log (1 + t.size) * w) := by
      unfold wqty
      rw [flog_fin_pos (by linarith)]
      rfl
    have hq0 : 0 ≤ Real.log (1 + t.size) * w :=
      mul_nonneg (Real.log_nonneg (by linarith)) hw
    by_cases hside : t.side = 0
    · have hind := ih (b + Real.log (1 + t.size) * w) s hrest (by linarith) hs
      simpa [accumTrades, hside, hq] using hind
    · have hind := ih b (s + Real.log (1 + t.size) * w) hrest hb (by linarith)
      simpa [accumTrades, hside, hq] using hind

/-- C3: for a tape of non-negative sizes, a window of at least 1, and a
non-negative weight vector, the result lies in [-1, 1], except when both
accumulated totals are 0, in which case it is NaN. -/
theorem result_in_unit_interval_or_nan (trades : List TradeRow) (window : ℕ)
    (hwin : 1 ≤ window)
    (hsz : ∀ t ∈ trades, 0 ≤ t.size)
    (hwts : ∀ w ∈ tradesWeights trades window, 0 ≤ w) :
    (tradesTotals trades window = (.fin 0, .fin 0) ∧
      trades_imbalance trades window = .nan) ∨
    (∃ x, trades_imbalance trades window = .fin x ∧ -1 ≤ x ∧ x ≤ 1) := by
  obtain ⟨B, S, htot, hB, hS⟩ :=
    accumTrades_nonneg
      ((trades.take (tradesEffWindow trades window)).zip (tradesWeights trades window))
      0 0
      (by
        intro p hp
        obtain ⟨t, w⟩ := p
        obtain ⟨h1, h2⟩ := List.of_mem_zip hp
        exact ⟨hsz t (List.mem_of_mem_take h1), hwts w h2⟩)
      le_rfl le_rfl
  have htot' : tradesTotals trades window = (.fin B, .fin S) := htot
  by_cases hz : B = 0 ∧ S = 0
  · left
    obtain ⟨h1, h2⟩ := hz
    subst h1; subst h2
    refine ⟨htot', ?_⟩
    unfold trades_imbalance
    show fdivF ((tradesTotals trades window).1.sub (tradesTotals trades window).2)
      ((tradesTotals trades window).1.add (tradesTotals trades window).2) = _
    rw [htot']
    show fdivF (FVal.sub (.fin 0) (.fin 0)) (FVal.add (.fin 0) (.fin 0)) = _
    simp only [FVal.sub_fin_fin, FVal.add_fin_fin, fdivF_fin_fin]
    norm_num [fdiv_zero_zero]
  · right
    have hne : B + S ≠ 0 := by
      intro h0
      exact hz ⟨by linarith, by linarith⟩
    have hsum : 0 < B + S := lt_of_le_of_ne (add_nonneg hB hS) (Ne.symm hne)
    refine ⟨(B + -S) / (B + S), ?_, ?_, ?_⟩
    · unfold trades_imbalance
      show fdivF ((tradesTotals trades window).1.sub (tradesTotals trades window).2)
        ((tradesTotals trades window).1.add (tradesTotals trades window).2) = _
      rw [htot']
      show fdivF (FVal.sub (.fin B) (.fin S)) (FVal.add (.fin B) (.fin S)) = _
      simp only [FVal.sub_fin_fin, FVal.add_fin_fin, fdivF_fin_fin]
      rw [fdiv_of_ne_zero hne]
    · rw [le_div_iff₀ hsum]
      linarith
    · rw [div_le_one hsum]
      linarith

/-- C3 witness: one buy of size 1, window 1. -/
theorem result_in_unit_interval_witness :
    (tradesTotals [⟨0, 0, 0, 1⟩] 1 = (.fin 0, .fin 0) ∧
      trades_imbalance [⟨0, 0, 0, 1⟩] 1 = .nan) ∨
    (∃ x, trades_imbalance [⟨0, 0, 0, 1⟩] 1 = .fin x ∧ -1 ≤ x ∧ x ≤ 1) := by
  apply result_in_unit_interval_or_nan
  · norm_num
  · intro t ht
    simp only [List.mem_singleton] at ht
    rw [ht]
    norm_num
  · exact fun w hw => ema_weights_nonneg _ _ w hw

theorem wqty_congr {t1 t2 : TradeRow} {w1 w2 : ℝ}
    (hsz : t1.size = t2.size) (hw : w1 = w2) : wqty t1 w1 = wqty t2 w2 := by
  unfold wqty
  rw [hsz, hw]

theorem accumTrades_congr :
    ∀ {l1 l2 : List (TradeRow × ℝ)},
    List.Forall₂ (fun p q =>
      (p.1.side = 0 ↔ q.1.side = 0) ∧ p.1.size = q.1.size ∧ p.2 = q.2) l1 l2 →
    ∀ acc, accumTrades l1 acc = accumTrades l2 acc := by
  intro l1 l2 h
  induction h with
  | nil => intro acc; rfl
  | @cons p q l1' l2' hpq _ ih =>
    intro acc
    obtain ⟨b, s⟩ := acc
    obtain ⟨t1, w1⟩ := p
    obtain ⟨t2, w2⟩ := q
    obtain ⟨hiff, hsz, hw⟩ := hpq
    have hwq : wqty t1 w1 = wqty t2 w2 := wqty_congr hsz hw
    by_cases hside : t1.side = 0
    · simp only [accumTrades, if_pos hside, if_pos (hiff.mp hside), hwq, ih]
    · simp only [accumTrades, if_neg hside, if_neg (fun hq0 => hside (hiff.mpr hq0)),
        hwq, ih]

theorem forall2_zip_same {S : TradeRow → TradeRow → Prop} :
    ∀ {l1 l2 : List TradeRow} (ws : List ℝ),
    List.Forall₂ S l1 l2 →
    List.Forall₂ (fun p q => S p.1 q.1 ∧ p.2 = q.2) (l1.zip ws) (l2.zip ws) := by
  intro l1 l2 ws h
  induction h generalizing ws with
  | nil => simp [List.zip]
  | cons hab _ ih =>
    cases ws with
    | nil => simp [List.zip]
    | cons w ws' => exact List.Forall₂.cons ⟨hab, rfl⟩ (ih ws')

/-- C10: a trade is classified as a buy exactly when its side is 0.0, and
as a sell for every other side value, and the result depends only on the
side and size columns of the first effective-window rows: tapes that agree
on the size column and on the predicate "side = 0" (in particular tapes
that agree on the side and size columns outright) give identical results,
whatever their timestamp and price columns. -/
theorem buy_iff_side_zero_and_column_independence :
    (∀ (t1 t2 : List TradeRow) (window : ℕ),
      List.Forall₂ (fun a b => (a.side = 0 ↔ b.side = 0) ∧ a.size = b.size)
        (t1.take (tradesEffWindow t1 window))
        (t2.take (tradesEffWindow t2 window)) →
      trades_imbalance t1 window = trades_imbalance t2 window) ∧
    (∀ (t1 t2 : List TradeRow) (window : ℕ),
      List.Forall₂ (fun a b => a.side = b.side ∧ a.size = b.size)
        (t1.take (tradesEffWindow t1 window))
        (t2.take (tradesEffWindow t2 window)) →
      trades_imbalance t1 window = trades_imbalance t2 window) := by
  have main : ∀ (t1 t2 : List TradeRow) (window : ℕ),
      List.Forall₂ (fun a b => (a.side = 0 ↔ b.side = 0) ∧ a.size = b.size)
        (t1.take (tradesEffWindow t1 window))
        (t2.take (tradesEffWindow t2 window)) →
      trades_imbalance t1 window = trades_imbalance t2 window := by
    intro t1 t2 window h
    have heff : tradesEffWindow t1 window = tradesEffWindow t2 window := by
      have hlen := h.length_eq
      simp only [List.length_take] at hlen
      unfold tradesEffWindow at *
      omega
    rw [heff] at h
    have htot : tradesTotals t1 window = tradesTotals t2 window := by
      unfold tradesTotals tradesWeights
      rw [heff]
      apply accumTrades_congr
      refine List.Forall₂.imp ?_
        (forall2_zip_same (ema_weights (tradesEffWindow t2 window) true) h)
      rintro p q ⟨⟨hiff, hsz⟩, hw⟩
      exact ⟨hiff, hsz, hw⟩
    unfold trades_imbalance
    rw [htot]
  refine ⟨main, ?_⟩
  intro t1 t2 window h
  apply main
  refine List.Forall₂.imp ?_ h
  rintro a b ⟨hs, hz⟩
  exact ⟨by rw [hs], hz⟩

/-- C10 witness: two one-trade tapes agreeing only in size (2), with
different timestamps, prices, and different non-zero sides (1 and 7),
give identical results. -/
theorem column_independence_witness :
    trades_imbalance [⟨0, 1, 5, 2⟩] 1 = trades_imbalance [⟨9, 7, 3, 2⟩] 1 := by
  apply buy_iff_side_zero_and_column_independence.1
  have h1 : ([⟨0, 1, 5, 2⟩] : List TradeRow).take
      (tradesEffWindow [⟨0, 1, 5, 2⟩] 1) = [⟨0, 1, 5, 2⟩] := by
    norm_num [tradesEffWindow, List.take]
  have h2 : ([⟨9, 7, 3, 2⟩] : List TradeRow).take
      (tradesEffWindow [⟨9, 7, 3, 2⟩] 1) = [⟨9, 7, 3, 2⟩] := by
    norm_num [tradesEffWindow, List.take]
  rw [h1, h2]
  refine List.Forall₂.cons ⟨?_, rfl⟩ List.Forall₂.nil
  show (1 : ℝ) = 0 ↔ (7 : ℝ) = 0
  norm_num

theorem ema_weights_false_antitone {n i j : ℕ} (hij : i ≤ j) (hj : j < n) :
    (ema_weights n false).getD j 0 ≤ (ema_weights n false).getD i 0 := by
  have hi : i < n := lt_of_le_of_lt hij hj
  rw [ema_weights_false_getElem n j hj, ema_weights_false_getElem n i hi]
  have hT : 0 < (geoRaw n).sum :=
    geoRaw_sum_pos (Nat.lt_of_le_of_lt (Nat.zero_le j) hj)
  rw [div_le_div_iff_of_pos_right hT]
  exact pow_le_pow_of_le_one (by norm_num) (by norm_num) hij

theorem ema_weights_true_getD {n i : ℕ} (hi : i < n) :
    (ema_weights n true).getD i 0 = (ema_weights n false).getD (n - 1 - i) 0 := by
  have htrue : ema_weights n true = (ema_weights n false).reverse := by
    simp [ema_weights]
  rw [htrue]
  have hlen : i < (ema_weights n false).reverse.length := by
    rw [List.length_reverse, ema_weights_length]; exact hi
  rw [List.getD_eq_getElem _ _ hlen]
  have h2 : n - 1 - i < (ema_weights n false).length := by
    rw [ema_weights_length]; omega
  rw [List.getD_eq_getElem _ _ h2]
  rw [List.getElem_reverse]
  congr 1
  rw [ema_weights_length]

/-- C8: `trades_imbalance` requests its weight vector with reverse
ordering (`reverse=True`), so inside the effective window the entry at the
highest index carries the greatest weight, while `orderbook_imbalance`
requests forward (non-reversed) ordering, so depth index 0 receives the
generator's natural first — and greatest — weight. -/
theorem weight_request_ordering (trades : List TradeRow) (window : ℕ)
    (depths : List ℝ) :
    tradesWeights trades window
      = (ema_weights (tradesEffWindow trades window) false).reverse ∧
    (∀ i, i < tradesEffWindow trades window →
      (tradesWeights trades window).getD i 0
        ≤ (tradesWeights trades window).getD
            (tradesEffWindow trades window - 1) 0) ∧
    obWeights depths = ema_weights depths.length false ∧
    (∀ j, j < depths.length →
      (obWeights depths).getD j 0 ≤ (obWeights depths).getD 0 0) := by
  refine ⟨by simp [tradesWeights, ema_weights], ?_, rfl, ?_⟩
  · intro i hi
    have hn : 0 < tradesEffWindow trades window :=
      Nat.lt_of_le_of_lt (Nat.zero_le i) hi
    unfold tradesWeights
    rw [ema_weights_true_getD hi,
      ema_weights_true_getD (n := tradesEffWindow trades window)
        (i := tradesEffWindow trades window - 1) (by omega)]
    rw [Nat.sub_self]
    exact ema_weights_false_antitone (Nat.zero_le _) (by omega)
  · intro j hj
    unfold obWeights
    exact ema_weights_false_antitone (Nat.zero_le j) hj

/-- C8 witness: instantiated at a one-trade tape with window 1 and a
single depth. -/
theorem weight_request_ordering_witness :
    tradesWeights [⟨0, 0, 0, 1⟩] 1
      = (ema_weights (tradesEffWindow [⟨0, 0, 0, 1⟩] 1) false).reverse ∧
    (tradesWeights [⟨0, 0, 0, 1⟩] 1).getD 0 0
      ≤ (tradesWeights [⟨0, 0, 0, 1⟩] 1).getD
          (tradesEffWindow [⟨0, 0, 0, 1⟩] 1 - 1) 0 ∧
    obWeights [(10 : ℝ)] = ema_weights ([(10 : ℝ)].length) false ∧
    (obWeights [(10 : ℝ)]).getD 0 0 ≤ (obWeights [(10 : ℝ)]).getD 0 0 := by
  obtain ⟨h1, h2, h3, h4⟩ := weight_request_ordering [⟨0, 0, 0, 1⟩] 1 [(10 : ℝ)]
  exact ⟨h1, h2 0 (by norm_num [tradesEffWindow]), h3, h4 0 (by norm_num)⟩

/-- C2 counterexample: with non-empty books and an empty `depths`,
`orderbook_imbalance` returns the numeric value 0.0 (the empty weighted
sum) instead of raising; with window 0, `trades_imbalance` returns the
numeric value NaN instead of raising. -/
theorem no_fail_fast_counterexample :
    orderbook_imbalance [((100 : ℝ), 1)] [((101 : ℝ), 1)] [] = some (.fin 0) ∧
    trades_imbalance [] 0 = .nan := by
  constructor
  · simp [orderbook_imbalance, weightedSum, obWeights, ema_weights, geoRaw]
  · have h : tradesTotals [] 0 = (.fin 0, .fin 0) := by
      unfold tradesTotals tradesEffWindow
      simp [accumTrades]
    unfold trades_imbalance
    show fdivF ((tradesTotals [] 0).1.sub (tradesTotals [] 0).2)
      ((tradesTotals [] 0).1.add (tradesTotals [] 0).2) = _
    rw [h]
    show fdivF (FVal.sub (.fin 0) (.fin 0)) (FVal.add (.fin 0) (.fin 0)) = _
    simp only [FVal.sub_fin_fin, FVal.add_fin_fin, fdivF_fin_fin]
    norm_num [fdiv_zero_zero]

/-- C2 amended: neither function validates its inputs.  An empty bids or
asks side fails only at the best-price access (modelled `none`), not via a
pre-arithmetic shape check; an empty `depths` with non-empty books returns
the numeric value 0.0; a window of 0 returns the numeric value NaN. -/
theorem no_shape_validation :
    (∀ (bids asks : List (ℝ × ℝ)) (depths : List ℝ),
      bids = [] ∨ asks = [] → orderbook_imbalance bids asks depths = none) ∧
    (∀ (bb bq ba aq : ℝ) (bt ar : List (ℝ × ℝ)),
      orderbook_imbalance ((bb, bq) :: bt) ((ba, aq) :: ar) [] = some (.fin 0)) ∧
    (∀ trades : List TradeRow, trades_imbalance trades 0 = .nan) := by
  refine ⟨?_, ?_, ?_⟩
  · rintro bids asks depths (rfl | rfl)
    · cases asks with
      | nil => rfl
      | cons a ar => rfl
    · cases bids with
      | nil => rfl
      | cons b bt => rfl
  · intro bb bq ba aq bt ar
    simp [orderbook_imbalance, weightedSum, obWeights, ema_weights, geoRaw]
  · intro trades
    have h : tradesTotals trades 0 = (.fin 0, .fin 0) := by
      unfold tradesTotals tradesEffWindow
      simp [accumTrades]
    unfold trades_imbalance
    show fdivF ((tradesTotals trades 0).1.sub (tradesTotals trades 0).2)
      ((tradesTotals trades 0).1.add (tradesTotals trades 0).2) = _
    rw [h]
    show fdivF (FVal.sub (.fin 0) (.fin 0)) (FVal.add (.fin 0) (.fin 0)) = _
    simp only [FVal.sub_fin_fin, FVal.add_fin_fin, fdivF_fin_fin]
    norm_num [fdiv_zero_zero]

/-- C2 witness for the amended statement, at concrete inputs. -/
theorem no_shape_validation_witness :
    orderbook_imbalance [] [((101 : ℝ), 1)] [(10 : ℝ)] = none ∧
    orderbook_imbalance [((100 : ℝ), 1)] [((101 : ℝ), 2)] [] = some (.fin 0) ∧
    trades_imbalance [⟨0, 0, 0, 1⟩] 0 = .nan :=
  ⟨no_shape_validation.1 _ _ _ (Or.inl rfl),
   no_shape_validation.2.1 100 1 101 2 [] [],
   no_shape_validation.2.2 _⟩

theorem depthImbalance_eq_zero (bid_p bid_q ask_p ask_q : List ℝ)
    (bb ba d : ℝ)
    (hsum : totalSizeWithin bid_q (numBidsWithinDepth bid_p (minBidPrice bb d))
          = totalSizeWithin ask_q (numAsksWithinDepth ask_p (maxAskPrice ba d)))
    (hne : totalSizeWithin ask_q (numAsksWithinDepth ask_p (maxAskPrice ba d)) ≠ 0) :
    depthImbalance bid_p bid_q ask_p ask_q bb ba d = .fin 0 := by
  unfold depthImbalance
  rw [hsum, fdiv_of_ne_zero hne, div_self hne, flog_fin_pos one_pos, Real.log_one]

theorem foldl_const_fin :
    ∀ (l : List (FVal × ℝ)) (s c : ℝ),
    (∀ p ∈ l, p.1 = .fin c) →
    l.foldl (fun (acc : FVal) (p : FVal × ℝ) => acc.add (p.1.mulReal p.2)) (.fin s)
      = .fin (s + c * (l.map Prod.snd).sum) := by
  intro l
  induction l with
  | nil => intro s c _; simp
  | cons p rest ih =>
    intro s c h
    obtain ⟨v, w⟩ := p
    have hv : v = .fin c := h (v, w) (List.mem_cons_self _ _)
    have hrest := fun q hq => h q (List.mem_cons_of_mem _ hq)
    subst hv
    simp only [List.foldl_cons, FVal.mulReal_fin, FVal.add_fin_fin]
    rw [ih (s + c * w) c hrest]
    simp only [List.map_cons, List.sum_cons]
    congr 1
    ring

theorem weightedSum_const (ims : List FVal) (ws : List ℝ) (c : ℝ)
    (hlen : ims.length = ws.length)
    (h : ∀ im ∈ ims, im = .fin c) :
    weightedSum ims ws = .fin (c * ws.sum) := by
  unfold weightedSum
  rw [foldl_const_fin (ims.zip ws) 0 c
    (by
      intro p hp
      obtain ⟨v, w⟩ := p
      exact h v (List.of_mem_zip hp).1)]
  rw [List.map_snd_zip ims ws (le_of_eq hlen.symm), zero_add]

/-- C7 counterexample: a perfectly mirrored book whose quantities are all
0 satisfies the claim's hypotheses (equal counted lengths, equal quantity
sums at the single depth) yet the per-depth imbalance is log(0/0) = NaN,
so the function returns NaN, not 0. -/
theorem mirrored_book_counterexample :
    numBidsWithinDepth [(100 : ℝ)] (minBidPrice 100 10)
      = numAsksWithinDepth [(100 : ℝ)] (maxAskPrice 100 10) ∧
    totalSizeWithin [(0 : ℝ)] (numBidsWithinDepth [(100 : ℝ)] (minBidPrice 100 10))
      = totalSizeWithin [(0 : ℝ)] (numAsksWithinDepth [(100 : ℝ)] (maxAskPrice 100 10)) ∧
    orderbook_imbalance [((100 : ℝ), 0)] [((100 : ℝ), 0)] [(10 : ℝ)] = some .nan ∧
    some FVal.nan ≠ some (FVal.fin 0) := by
  have h1 : minBidPrice 100 10 ≤ 100 := by
    norm_num [minBidPrice, bpsToMultiplier]
  have h2 : (100 : ℝ) ≤ maxAskPrice 100 10 := by
    norm_num [maxAskPrice, bpsToMultiplier]
  have hb : numBidsWithinDepth [(100 : ℝ)] (minBidPrice 100 10) = 1 := by
    simp [numBidsWithinDepth, List.filter_cons, decide_eq_true_eq, h1]
  have ha : numAsksWithinDepth [(100 : ℝ)] (maxAskPrice 100 10) = 1 := by
    simp [numAsksWithinDepth, List.filter_cons, decide_eq_true_eq, h2]
  have hd : depthImbalance [(100 : ℝ)] [(0 : ℝ)] [(100 : ℝ)] [(0 : ℝ)]
      100 100 10 = .nan := by
    unfold depthImbalance
    rw [hb, ha]
    simp [totalSizeWithin, fdiv_zero_zero]
  refine ⟨by rw [hb, ha], by rw [hb, ha], ?_, by simp⟩
  simp only [orderbook_imbalance, List.map_cons, List.map_nil]
  rw [hd]
  simp [weightedSum, obWeights, ema_weights, geoRaw, List.range_succ,
    List.range_zero]

/-- C7 amended: for a mirrored book whose per-depth counted lengths are
equal and whose per-depth quantity sums are equal and non-zero, every
per-depth imbalance is log(T/T) = 0 and the weighted sum is 0. -/
theorem mirrored_book_returns_zero (bb bq ba aq : ℝ) (bt ar : List (ℝ × ℝ))
    (depths : List ℝ)
    (h : ∀ d ∈ depths,
      numBidsWithinDepth (((bb, bq) :: bt).map Prod.fst) (minBidPrice bb d)
        = numAsksWithinDepth (((ba, aq) :: ar).map Prod.fst) (maxAskPrice ba d) ∧
      totalSizeWithin (((bb, bq) :: bt).map Prod.snd)
          (numBidsWithinDepth (((bb, bq) :: bt).map Prod.fst) (minBidPrice bb d))
        = totalSizeWithin (((ba, aq) :: ar).map Prod.snd)
            (numAsksWithinDepth (((ba, aq) :: ar).map Prod.fst) (maxAskPrice ba d)) ∧
      totalSizeWithin (((ba, aq) :: ar).map Prod.snd)
          (numAsksWithinDepth (((ba, aq) :: ar).map Prod.fst) (maxAskPrice ba d)) ≠ 0) :
    (∀ d ∈ depths,
      depthImbalance (((bb, bq) :: bt).map Prod.fst) (((bb, bq) :: bt).map Prod.snd)
        (((ba, aq) :: ar).map Prod.fst) (((ba, aq) :: ar).map Prod.snd)
        bb ba d = .fin 0) ∧
    orderbook_imbalance ((bb, bq) :: bt) ((ba, aq) :: ar) depths
      = some (.fin 0) := by
  have him : ∀ d ∈ depths,
      depthImbalance (((bb, bq) :: bt).map Prod.fst) (((bb, bq) :: bt).map Prod.snd)
        (((ba, aq) :: ar).map Prod.fst) (((ba, aq) :: ar).map Prod.snd)
        bb ba d = .fin 0 := by
    intro d hd
    obtain ⟨-, hsum, hne⟩ := h d hd
    exact depthImbalance_eq_zero _ _ _ _ _ _ _ hsum hne
  refine ⟨him, ?_⟩
  show some (weightedSum _ _) = _
  congr 1
  rw [weightedSum_const _ _ 0
    (by simp [obWeights, ema_weights_length])
    (by
      intro im him'
      obtain ⟨d, hd, rfl⟩ := List.mem_map.mp him'
      exact him d hd)]
  rw [zero_mul]

/-- C7 witness: a mirrored one-level book with quantity 1 on both sides. -/
theorem mirrored_book_returns_zero_witness :
    (∀ d ∈ [(10 : ℝ)],
      depthImbalance [(100 : ℝ)] [(1 : ℝ)] [(100 : ℝ)] [(1 : ℝ)]
        100 100 d = .fin 0) ∧
    orderbook_imbalance [((100 : ℝ), 1)] [((100 : ℝ), 1)] [(10 : ℝ)]
      = some (.fin 0) := by
  have h1 : minBidPrice 100 10 ≤ 100 := by
    norm_num [minBidPrice, bpsToMultiplier]
  have h2 : (100 : ℝ) ≤ maxAskPrice 100 10 := by
    norm_num [maxAskPrice, bpsToMultiplier]
  have hgoal := mirrored_book_returns_zero 100 1 100 1 [] [] [(10 : ℝ)]
    (by
      intro d hd
      simp only [List.mem_singleton] at hd
      subst hd
      simp only [List.map_cons, List.map_nil]
      have hb : numBidsWithinDepth [(100 : ℝ)] (minBidPrice 100 10) = 1 := by
        simp [numBidsWithinDepth, List.filter_cons, decide_eq_true_eq, h1]
      have ha : numAsksWithinDepth [(100 : ℝ)] (maxAskPrice 100 10) = 1 := by
        simp [numAsksWithinDepth, List.filter_cons, decide_eq_true_eq, h2]
      rw [hb, ha]
      norm_num [totalSizeWithin])
  simpa using hgoal

theorem numBidsWithinDepth_all {bid_p : List ℝ} {m : ℝ}
    (h : ∀ p ∈ bid_p, m ≤ p) : numBidsWithinDepth bid_p m = bid_p.length := by
  unfold numBidsWithinDepth
  rw [List.filter_eq_self.mpr]
  intro a ha
  simp [h a ha]

theorem numAsksWithinDepth_all {ask_p : List ℝ} {m : ℝ}
    (h : ∀ p ∈ ask_p, p ≤ m) : numAsksWithinDepth ask_p m = ask_p.length := by
  unfold numAsksWithinDepth
  rw [List.filter_eq_self.mpr]
  intro a ha
  simp [h a ha]

theorem totalSizeWithin_length (q : List ℝ) :
    totalSizeWithin q q.length = q.sum := by
  unfold totalSizeWithin
  rw [List.take_length]

/-- C9 counterexample: with positive prices and a depth above 1e-4 the bid
band bound is negative, but the ask band does not cover an ask lying far
above the best ask: with asks at 1 and 1000 and depth 2e-4 the converted
multiplier is 2, max_ask = 3 < 1000, only one ask level is counted, and
the result is 0 while the claimed value ln(sum bids / sum asks) times the
weight sum is non-zero. -/
theorem deep_depth_counterexample :
    ((0 : ℝ) < 100 ∧ (0 : ℝ) < 1 ∧ (0 : ℝ) < 1000 ∧ (1e-4 : ℝ) < 2e-4) ∧
    maxAskPrice 1 (2e-4) < 1000 ∧
    numAsksWithinDepth [(1 : ℝ), 1000] (maxAskPrice 1 (2e-4)) = 1 ∧
    orderbook_imbalance [((100 : ℝ), 1)] [((1 : ℝ), 1), ((1000 : ℝ), 1)]
      [(2e-4 : ℝ)] = some (.fin 0) ∧
    Real.log ((1 : ℝ) / (1 + 1)) * (obWeights [(2e-4 : ℝ)]).sum ≠ 0 := by
  have h3 : (1 : ℝ) ≤ maxAskPrice 1 (2e-4) := by
    norm_num [maxAskPrice, bpsToMultiplier]
  have h4 : ¬((1000 : ℝ) ≤ maxAskPrice 1 (2e-4)) := by
    norm_num [maxAskPrice, bpsToMultiplier]
  have ha : numAsksWithinDepth [(1 : ℝ), 1000] (maxAskPrice 1 (2e-4)) = 1 := by
    simp [numAsksWithinDepth, List.filter_cons, decide_eq_true_eq, h3, h4]
  have h5 : minBidPrice 100 (2e-4) ≤ 100 := by
    norm_num [minBidPrice, bpsToMultiplier]
  have hb : numBidsWithinDepth [(100 : ℝ)] (minBidPrice 100 (2e-4)) = 1 := by
    simp [numBidsWithinDepth, List.filter_cons, decide_eq_true_eq, h5]
  have hdep : depthImbalance [(100 : ℝ)] [(1 : ℝ)] [(1 : ℝ), 1000] [(1 : ℝ), 1]
      100 1 (2e-4) = .fin 0 := by
    unfold depthImbalance
    rw [hb, ha]
    have ht1 : totalSizeWithin [(1 : ℝ)] 1 = 1 := by
      norm_num [totalSizeWithin]
    have ht2 : totalSizeWithin [(1 : ℝ), 1] 1 = 1 := by
      norm_num [totalSizeWithin, List.take]
    rw [ht1, ht2, fdiv_of_ne_zero one_ne_zero, div_one, flog_fin_pos one_pos,
      Real.log_one]
  have hsum : (obWeights [(2e-4 : ℝ)]).sum = 1 := by
    simp [obWeights, ema_weights, geoRaw, List.range_succ, List.range_zero]
  refine ⟨by norm_num, by norm_num [maxAskPrice, bpsToMultiplier], ha, ?_, ?_⟩
  · simp only [orderbook_imbalance, List.map_cons, List.map_nil]
    rw [hdep]
    rw [weightedSum_const [FVal.fin 0] (obWeights [(2e-4 : ℝ)]) 0
      (by simp [obWeights, ema_weights_length])
      (by intro im him; simp only [List.mem_singleton] at him; exact him)]
    rw [zero_mul]
  · rw [hsum, mul_one]
    exact ne_of_lt (Real.log_neg (by norm_num) (by norm_num))

/-- C9 amended: for positive bid prices, depths all above 1e-4 (converted
multiplier above 1, so the bid bound is negative and every bid level is
counted), and ask prices that all lie within the ask band at every depth,
with positive quantity sums on both sides, every level of both sides is
counted at every depth, each per-depth imbalance equals
ln(sum of all bid quantities / sum of all ask quantities), and the result
is that constant times the sum of the weights, independent of the
individual depth values. -/
theorem deep_depth_full_band (bb bq ba aq : ℝ) (bt ar : List (ℝ × ℝ))
    (depths : List ℝ)
    (hbp : ∀ p ∈ ((bb, bq) :: bt).map Prod.fst, 0 < p)
    (hdep : ∀ d ∈ depths, 1e-4 < d)
    (hask : ∀ p ∈ ((ba, aq) :: ar).map Prod.fst, ∀ d ∈ depths,
      p ≤ maxAskPrice ba d)
    (hB : 0 < (((bb, bq) :: bt).map Prod.snd).sum)
    (hA : 0 < (((ba, aq) :: ar).map Prod.snd).sum) :
    (∀ d ∈ depths,
      numBidsWithinDepth (((bb, bq) :: bt).map Prod.fst) (minBidPrice bb d)
        = ((bb, bq) :: bt).length ∧
      numAsksWithinDepth (((ba, aq) :: ar).map Prod.fst) (maxAskPrice ba d)
        = ((ba, aq) :: ar).length ∧
      depthImbalance (((bb, bq) :: bt).map Prod.fst)
        (((bb, bq) :: bt).map Prod.snd)
        (((ba, aq) :: ar).map Prod.fst)
        (((ba, aq) :: ar).map Prod.snd) bb ba d
        = .fin (Real.log ((((bb, bq) :: bt).map Prod.snd).sum
            / (((ba, aq) :: ar).map Prod.snd).sum))) ∧
    orderbook_imbalance ((bb, bq) :: bt) ((ba, aq) :: ar) depths
      = some (.fin (Real.log ((((bb, bq) :: bt).map Prod.snd).sum
          / (((ba, aq) :: ar).map Prod.snd).sum) * (obWeights depths).sum)) := by
  have hbb : 0 < bb := hbp bb (by simp)
  have him : ∀ d ∈ depths,
      numBidsWithinDepth (((bb, bq) :: bt).map Prod.fst) (minBidPrice bb d)
        = ((bb, bq) :: bt).length ∧
      numAsksWithinDepth (((ba, aq) :: ar).map Prod.fst) (maxAskPrice ba d)
        = ((ba, aq) :: ar).length ∧
      depthImbalance (((bb, bq) :: bt).map Prod.fst)
        (((bb, bq) :: bt).map Prod.snd)
        (((ba, aq) :: ar).map Prod.fst)
        (((ba, aq) :: ar).map Prod.snd) bb ba d
        = .fin (Real.log ((((bb, bq) :: bt).map Prod.snd).sum
            / (((ba, aq) :: ar).map Prod.snd).sum)) := by
    intro d hd
    have hmul : 1 < bpsToMultiplier d := by
      unfold bpsToMultiplier
      rw [one_lt_div (by norm_num : (0 : ℝ) < 1e-4)]
      exact hdep d hd
    have hmin : minBidPrice bb d < 0 := by
      unfold minBidPrice
      exact mul_neg_of_pos_of_neg hbb (by linarith)
    have hnb : numBidsWithinDepth (((bb, bq) :: bt).map Prod.fst)
        (minBidPrice bb d) = ((bb, bq) :: bt).length := by
      rw [numBidsWithinDepth_all (fun p hp => le_of_lt
        (lt_trans hmin (hbp p hp)))]
      exact List.length_map _ _
    have hna : numAsksWithinDepth (((ba, aq) :: ar).map Prod.fst)
        (maxAskPrice ba d) = ((ba, aq) :: ar).length := by
      rw [numAsksWithinDepth_all (fun p hp => hask p hp d hd)]
      exact List.length_map _ _
    refine ⟨hnb, hna, ?_⟩
    unfold depthImbalance
    rw [hnb, hna]
    have hq1 : ((bb, bq) :: bt).length = (((bb, bq) :: bt).map Prod.snd).length :=
      (List.length_map _ _).symm
    have hq2 : ((ba, aq) :: ar).length = (((ba, aq) :: ar).map Prod.snd).length :=
      (List.length_map _ _).symm
    rw [hq1, hq2, totalSizeWithin_length, totalSizeWithin_length]
    rw [fdiv_of_ne_zero (ne_of_gt hA), flog_fin_pos (div_pos hB hA)]
  refine ⟨him, ?_⟩
  show some (weightedSum _ _) = _
  congr 1
  rw [weightedSum_const _ _
    (Real.log ((((bb, bq) :: bt).map Prod.snd).sum
      / (((ba, aq) :: ar).map Prod.snd).sum))
    (by simp [obWeights, ema_weights_length])
    (by
      intro im him'
      obtain ⟨d, hd, rfl⟩ := List.mem_map.mp him'
      exact (him d hd).2.2)]

/-- C9 witness for the amended statement: one-level book on both sides,
depth 10 bps-literal (multiplier 100000), all levels inside both bands. -/
theorem deep_depth_full_band_witness :
    (∀ d ∈ [(10 : ℝ)],
      numBidsWithinDepth ([((100 : ℝ), (1 : ℝ))].map Prod.fst) (minBidPrice 100 d)
        = [((100 : ℝ), (1 : ℝ))].length ∧
      numAsksWithinDepth ([((100 : ℝ), (1 : ℝ))].map Prod.fst) (maxAskPrice 100 d)
        = [((100 : ℝ), (1 : ℝ))].length ∧
      depthImbalance ([((100 : ℝ), (1 : ℝ))].map Prod.fst)
        ([((100 : ℝ), (1 : ℝ))].map Prod.snd)
        ([((100 : ℝ), (1 : ℝ))].map Prod.fst)
        ([((100 : ℝ), (1 : ℝ))].map Prod.snd) 100 100 d
        = .fin (Real.log (([((100 : ℝ), (1 : ℝ))].map Prod.snd).sum
            / ([((100 : ℝ), (1 : ℝ))].map Prod.snd).sum))) ∧
    orderbook_imbalance [((100 : ℝ), (1 : ℝ))] [((100 : ℝ), (1 : ℝ))] [(10 : ℝ)]
      = some (.fin (Real.log (([((100 : ℝ), (1 : ℝ))].map Prod.snd).sum
          / ([((100 : ℝ), (1 : ℝ))].map Prod.snd).sum)
          * (obWeights [(10 : ℝ)]).sum)) := by
  apply deep_depth_full_band
  · intro p hp
    simp only [List.map_cons, List.map_nil, List.mem_singleton] at hp
    rw [hp]
    norm_num
  · intro d hd
    simp only [List.mem_singleton] at hd
    rw [hd]
    norm_num
  · intro p hp d hd
    simp only [List.map_cons, List.map_nil, List.mem_singleton] at hp hd
    rw [hp, hd]
    norm_num [maxAskPrice, bpsToMultiplier]
  · simp only [List.map_cons, List.map_nil, List.sum_cons, List.sum_nil]
    norm_num
  · simp only [List.map_cons, List.map_nil, List.sum_cons, List.sum_nil]
    norm_num
